import Mathlib

/-!
Verification of the core of the Notion equation-fixer automation
(src/constants.py, src/notion_eqn_fix.py, src/fix_notion_eqns.py).

The development shallowly embeds:
* the delimiter regular expression `\$\$(.+?)\$\$|\$(.+?)\$` (DOTALL, global)
  and its repeated, non-overlapping, leftmost-first execution
  (DOLLAR_RE / the `re` literal inside JS_FIND_MATCHES);
* the DOM tree, the address encoder `getXPath` and the decoder
  `elementByXPath` (document.evaluate with FIRST_ORDERED_NODE_TYPE);
* the scanner JS_FIND_MATCHES, the selector JS_SELECT_MATCH
  (with its side effects on scroll / selection / focus state);
* the controller loop `process_all_matches`.
-/

namespace Notion

/-! ## Delimiter regular expression

`tryMatch rest` returns the length of the match that the regular
expression `\$\$(.+?)\$\$|\$(.+?)\$` (with dot matching newline) produces
when anchored at the first character of `rest`: the double-dollar
alternative is tried first, and each `.+?` is lazy, so the content is the
shortest non-empty character run that lets the closing delimiter match. -/
/-- Index of the first `'$'` character in a character list. -/
def firstDollarIdx : List Char → Option Nat
  | [] => none
  | c :: cs => if c = '$' then some 0 else (firstDollarIdx cs).map (· + 1)

/-- Index of the first adjacent `"$$"` pair in a character list. -/
def firstPairIdx : List Char → Option Nat
  | [] => none
  | [_] => none
  | a :: b :: cs =>
      if a = '$' ∧ b = '$' then some 0 else (firstPairIdx (b :: cs)).map (· + 1)

/-- Length of the lazy match of `\$(.+?)\$` at a position whose leading `'$'`
has already been consumed; `t` is the remainder after that `'$'`.  The lazy
`.+?` makes the content end at the first `'$'` occurring at index `≥ 1` of
`t`, so the total match length is that index plus two delimiters. -/
def singleLen (t : List Char) : Option Nat :=
  (firstDollarIdx (t.drop 1)).map (fun m => m + 3)

/-- Length of the lazy match of `\$\$(.+?)\$\$` at a position whose leading
`"$$"` has already been consumed; `t2` is the remainder after it.  The lazy
`.+?` makes the content end at the first `"$$"` pair occurring at index
`≥ 1` of `t2`. -/
def doubleLen (t2 : List Char) : Option Nat :=
  (firstPairIdx (t2.drop 1)).map (fun m => m + 5)

/-- Length of the match of `\$\$(.+?)\$\$|\$(.+?)\$` anchored at the start of
`rest`: the double-dollar alternative is tried before the single-dollar
alternative, exactly as the alternation is ordered in `DOLLAR_RE` and in the
JS scanner regex. -/
def tryMatch (rest : List Char) : Option Nat :=
  match rest with
  | c :: c2 :: t2 =>
      if c = '$' then
        if c2 = '$' then
          match doubleLen t2 with
          | some L => some L
          | none => singleLen (c2 :: t2)
        else singleLen (c2 :: t2)
      else none
  | _ => none

/-- Global scan (`re.exec` in a loop with `lastIndex`, or `re.finditer`):
from position `i`, find the leftmost position where the anchored expression
matches, emit the pair (match start, match end), and continue scanning at
the match end, producing non-overlapping matches left to right.  `fuel`
only drives the recursion; `s.length + 1` is always sufficient. -/
def scanGo (s : List Char) : Nat → Nat → List (Nat × Nat)
  | 0, _ => []
  | fuel + 1, i =>
      if i < s.length then
        match tryMatch (s.drop i) with
        | some L => (i, i + L) :: scanGo s fuel (i + L)
        | none => scanGo s fuel (i + 1)
      else []

/-- All matches of the delimiter expression in `s` from position `i` on. -/
def scanFrom (s : List Char) (i : Nat) : List (Nat × Nat) :=
  scanGo s (s.length + 1) i

/-- All matches of the delimiter expression in `s`, leftmost first,
non-overlapping. -/
def scanAll (s : List Char) : List (Nat × Nat) :=
  scanFrom s 0

/-- Characters of `s` in the half-open interval `[a, b)` (`String.slice`). -/
def sliceBetween (s : List Char) (a b : Nat) : List Char :=
  (s.take b).drop a

/-- Diagnostic preview around a match: `s.slice(max(0, a-10), min(len, b+10))`. -/
def previewOf (s : List Char) (a b : Nat) : List Char :=
  (s.take (min s.length (b + 10))).drop (a - 10)

/-- A character list is exactly one delimiter-span match, delimiters
included: the anchored expression matches at its start and consumes all of
it. -/
def isDelimSpan (xs : List Char) : Prop :=
  tryMatch xs = some xs.length

instance (xs : List Char) : Decidable (isDelimSpan xs) := by
  unfold isDelimSpan; infer_instance

/-! ## Iteration controller (process_all_matches)

The Python loop in fix_notion_eqns.py / notion_eqn_fix.py is generic in the
page state it drives through the WebDriver: each pass expands toggles
(JS_EXPAND_TOGGLES), scans (JS_FIND_MATCHES), breaks when no matches
remain, selects only the first match (JS_SELECT_MATCH), retries the pass on
selection failure, and triggers the conversion shortcut on success,
incrementing `processed`.  `σ` is the abstract page state, `α` the match
descriptor type; `ex`, `scan`, `sel`, `trig` are the four driver calls.
The loop returns `processed`; `processLoop` additionally counts the number
of scans executed (the number of passes that were started). -/
def processLoop {σ α : Type} (ex : σ → σ) (scan : σ → List α)
    (sel : σ → α → Bool) (trig : σ → σ) : Nat → σ → Nat × Nat
  | 0, _ => (0, 0)
  | passes + 1, st =>
      match scan (ex st) with
      | [] => (0, 1)
      | m :: _ =>
          if sel (ex st) m then
            let r := processLoop ex scan sel trig passes (trig (ex st))
            (r.1 + 1, r.2 + 1)
          else
            let r := processLoop ex scan sel trig passes (ex st)
            (r.1, r.2 + 1)

/-- Total number of matches successfully processed, as returned by
`process_all_matches`. -/
def process_all_matches {σ α : Type} (ex : σ → σ) (scan : σ → List α)
    (sel : σ → α → Bool) (trig : σ → σ) (max_passes : Nat) (st : σ) : Nat :=
  (processLoop ex scan sel trig max_passes st).1

/-! ## Document tree model

A DOM node is a text node or an element.  The element fields model exactly
the attributes the core reads: `tag` the (lower-cased) node name, `id` the
`id` attribute (`""` when absent), `leaf` whether
`data-content-editable-leaf="true"` is set, `vis` whether the element has a
rendered layout box (`offsetParent !== null`), `ce` whether
`contenteditable="true"` is set. -/
inductive DomNode where
  | text (s : String)
  | elem (tag id : String) (leaf vis ce : Bool) (children : List DomNode)

/-- Paths are child-index sequences from the document's root element; the
root element itself is `[]`.  A path is the model's identity for a node in
the tree (the DOM's object identity). -/
abbrev Path := List Nat

def childrenOf : DomNode → List DomNode
  | .text _ => []
  | .elem _ _ _ _ _ cs => cs

def isElemB : DomNode → Bool
  | .text _ => false
  | .elem _ _ _ _ _ _ => true

def tagOf : DomNode → String
  | .text _ => "#text"
  | .elem t _ _ _ _ _ => t

def idOf : DomNode → String
  | .text _ => ""
  | .elem _ i _ _ _ _ => i

def leafOf : DomNode → Bool
  | .text _ => false
  | .elem _ _ lf _ _ _ => lf

def visOf : DomNode → Bool
  | .text _ => false
  | .elem _ _ _ v _ _ => v

def ceOf : DomNode → Bool
  | .text _ => false
  | .elem _ _ _ _ c _ => c

/-- Node reached from `n` by following child indices. -/
def nodeAt : DomNode → Path → Option DomNode
  | n, [] => some n
  | n, i :: rest =>
      match (childrenOf n)[i]? with
      | some c => nodeAt c rest
      | none => none

/-- Does `c` count as a sibling of the same name in `getXPath`'s loop
(`sib.nodeType === Node.ELEMENT_NODE && sib.nodeName === el.nodeName`)? -/
def hasTag (t : String) (c : DomNode) : Bool :=
  isElemB c && (tagOf c == t)

/-- Element children with tag `t`, each with its child index, in order. -/
def sameTagFrom (t : String) : List DomNode → Nat → List (Nat × DomNode)
  | [], _ => []
  | c :: cs, k =>
      if hasTag t c then (k, c) :: sameTagFrom t cs (k + 1)
      else sameTagFrom t cs (k + 1)

def sameTagChildren (n : DomNode) (t : String) : List (Nat × DomNode) :=
  sameTagFrom t (childrenOf n) 0

/-- One step of a structural XPath: a tag name and an optional 1-based
ordinal among same-tag element siblings (`tagName + '[' + idx + ']'`). -/
structure Segment where
  tag : String
  ord : Option Nat
deriving DecidableEq, Repr

/-- An address as built by `getXPath`: either `//*[@id="..."]` or a
root-to-leaf sequence of tag segments. -/
inductive Address where
  | byId (s : String)
  | byPath (segs : List Segment)
deriving DecidableEq, Repr

/-- Segments of the structural path below the root, following `p`; mirrors
the `while` loop of `getXPath` (computed bottom-up there, root-to-leaf
here): the ordinal `idx` is included only when `nb > 1` same-tag element
siblings exist under the parent. -/
def segsGo : DomNode → Path → List Segment
  | _, [] => []
  | n, i :: rest =>
      match (childrenOf n)[i]? with
      | some c =>
          if isElemB c then
            let nb := ((childrenOf n).filter (hasTag (tagOf c))).length
            let idx := 1 + (((childrenOf n).take i).filter (hasTag (tagOf c))).length
            ⟨tagOf c, if 1 < nb then some idx else none⟩ :: segsGo c rest
          else []
      | none => []

/-- The address encoder `getXPath` of JS_FIND_MATCHES, as a function of the
document root `t` and the path `p` of the element: the `id` shortcut if the
element has a non-empty id, otherwise the structural path (whose first
segment is the root element's tag, always without ordinal, because the
document has a single element child). -/
def getXPath (t : DomNode) (p : Path) : Address :=
  match nodeAt t p with
  | some e =>
      if idOf e ≠ "" then Address.byId (idOf e)
      else Address.byPath (⟨tagOf t, none⟩ :: segsGo t p)
  | none => Address.byPath []

/-- XPath child step: children of `pn` with the segment's tag, restricted
by the positional predicate when an ordinal is present (`[k]` keeps the
k-th node of the step's node list, 1-based; `[0]` keeps nothing). -/
def segStep (pn : Path × DomNode) (seg : Segment) : List (Path × DomNode) :=
  let tc := (sameTagChildren pn.2 seg.tag).map (fun ic => (pn.1 ++ [ic.1], ic.2))
  match seg.ord with
  | none => tc
  | some k =>
      if k = 0 then []
      else
        match tc[k - 1]? with
        | some x => [x]
        | none => []

/-- Node list of a structural path evaluated against the document whose
root element is `t`, in document order.  The first segment is matched
against the document's element children (just `t`). -/
def resolveSegs (t : DomNode) : List Segment → List (Path × DomNode)
  | [] => []
  | s0 :: rest =>
      let init : List (Path × DomNode) :=
        if isElemB t && (tagOf t == s0.tag)
            && (match s0.ord with | none => true | some k => k == 1)
        then [(([] : Path), t)] else []
      rest.foldl (fun set seg => set.flatMap (fun pn => segStep pn seg)) init

mutual
def preorderElems : DomNode → Path → List (Path × DomNode)
  | DomNode.text _, _ => []
  | DomNode.elem t i lf v ce cs, base =>
      (base, DomNode.elem t i lf v ce cs) :: preorderElemsList cs base 0
def preorderElemsList : List DomNode → Path → Nat → List (Path × DomNode)
  | [], _, _ => []
  | c :: cs, base, k =>
      preorderElems c (base ++ [k]) ++ preorderElemsList cs base (k + 1)
end

/-- The decoder `elementByXPath` of JS_SELECT_MATCH:
`document.evaluate(path, document, null, XPathResult.FIRST_ORDERED_NODE_TYPE,
null).singleNodeValue`, i.e. the first node of the path's node list in
document order, or none.  For `//*[@id="s"]` this is the first element in
document order whose id is `s`. -/
def elementByXPath (t : DomNode) (a : Address) : Option Path :=
  match a with
  | .byId s =>
      ((preorderElems t []).find? (fun pn => idOf pn.2 == s)).map (fun pn => pn.1)
  | .byPath segs =>
      ((resolveSegs t segs).map (fun pn => pn.1)).head?

/-- Example tree: html with a div (two spans inside) and a section. -/
def egTree : DomNode :=
  DomNode.elem "html" "" false true false
    [DomNode.elem "div" "" false true false
      [DomNode.elem "span" "" false true false [],
       DomNode.text "hi",
       DomNode.elem "span" "" false true false []],
     DomNode.elem "section" "" false true false []]

/-- Tree with two distinct elements sharing id `"x"` (legal in a live DOM). -/
def dupIdTree : DomNode :=
  DomNode.elem "html" "" false true false
    [DomNode.elem "div" "x" false true false [DomNode.text "A"],
     DomNode.elem "div" "x" false true false [DomNode.text "B"]]

/-! ### Declarative address matching (claim C4) -/
/-- Does the child at index `i` of `n` satisfy the XPath step `seg`
(tag equal, and when an ordinal is present, the child is the `k`-th
same-tag element child, 1-based)? -/
def segMatchesAt (n : DomNode) (seg : Segment) (i : Nat) : Bool :=
  match (childrenOf n)[i]? with
  | some c =>
      hasTag seg.tag c &&
      (match seg.ord with
       | none => true
       | some k =>
          k == 1 + (((childrenOf n).take i).filter (hasTag seg.tag)).length)
  | none => false

/-- Does path `q` below node `n` match the segment sequence, step by step? -/
def pathMatchesFrom (n : DomNode) : List Segment → Path → Bool
  | [], [] => true
  | seg :: rest, i :: qrest =>
      segMatchesAt n seg i &&
      (match (childrenOf n)[i]? with
       | some c => pathMatchesFrom c rest qrest
       | none => false)
  | _, _ => false

/-- Does the document root element match the first segment of an absolute
structural path? -/
def rootMatches (t : DomNode) (s0 : Segment) : Bool :=
  isElemB t && (tagOf t == s0.tag)
    && (match s0.ord with | none => true | some k => k == 1)

/-- Declarative reading of "the address matches the element at path `q`". -/
def addrMatches (t : DomNode) (a : Address) (q : Path) : Bool :=
  match a with
  | .byId s =>
      (match nodeAt t q with
       | some n => isElemB n && (idOf n == s)
       | none => false)
  | .byPath segs =>
      match segs with
      | [] => false
      | s0 :: rest => rootMatches t s0 && pathMatchesFrom t rest q

/-- Tree whose root has two `div` element children. -/
def twoDivTree : DomNode :=
  DomNode.elem "html" "" false true false
    [DomNode.elem "div" "first" false true false [],
     DomNode.elem "div" "second" false true false []]

/-! ## Span scanner (JS_FIND_MATCHES) -/
mutual
def textSelfP : DomNode → Path → List (Path × String)
  | DomNode.text s, base => [(base, s)]
  | DomNode.elem _ _ _ _ _ cs, base => textChildrenP cs base 0
def textChildrenP : List DomNode → Path → Nat → List (Path × String)
  | [], _, _ => []
  | c :: cs, base, k =>
      textSelfP c (base ++ [k]) ++ textChildrenP cs base (k + 1)
end

/-- TreeWalker(el, SHOW_TEXT): all descendant text nodes of `el` in
document order (the element itself is never a text node), with paths. -/
def textNodesP (el : DomNode) (base : Path) : List (Path × String) :=
  textChildrenP (childrenOf el) base 0

/-- The text-node traversal used identically by scanner and selector,
values only. -/
def textNodesUnder (el : DomNode) : List String :=
  (textNodesP el []).map (fun ps => ps.2)

/-- Flattened text of an element (models `el.innerText` as used by the
scanner's cheap `indexOf('$')` pre-check). -/
def innerTextOf (el : DomNode) : String :=
  String.join (textNodesUnder el)

/-- Descendant elements of `el` in document order, with absolute paths
(`root.querySelectorAll(...)` never returns the root itself). -/
def descElemsOf (el : DomNode) (base : Path) : List (Path × DomNode) :=
  preorderElemsList (childrenOf el) base 0

/-- Candidate leaves: descendants of the content root with
`data-content-editable-leaf="true"`, filtered to visible ones
(`el.offsetParent !== null`), in document order. -/
def candidatesOf (t : DomNode) (rp : Path) : List (Path × DomNode) :=
  match nodeAt t rp with
  | some root => (descElemsOf root rp).filter (fun pl => leafOf pl.2 && visOf pl.2)
  | none => []

/-- The location descriptor pushed by JS_FIND_MATCHES for one match.
Numeric fields are JS numbers, modelled as integers (the selector must
reject negative values coming back in). -/
structure MatchRef where
  xpath : Address
  nodeIndex : Int
  start : Int
  end_ : Int
  preview : List Char
deriving DecidableEq, Repr

/-- Pair each list element with its index starting at `k` (the `for (let
ti = 0; ...)` loop counter). -/
def withIdx {α : Type} : Nat → List α → List (Nat × α)
  | _, [] => []
  | k, a :: as' => (k, a) :: withIdx (k + 1) as'

/-- Matches emitted for one text node with content `s` at ordinal `ti`
(after the per-node `indexOf('$')` skip). -/
def matchRefsOfNode (xp : Address) (ti : Nat) (s : String) : List MatchRef :=
  if s.data.contains '$' then
    (scanAll s.data).map (fun ab =>
      { xpath := xp, nodeIndex := (ti : Int), start := (ab.1 : Int),
        end_ := (ab.2 : Int), preview := previewOf s.data ab.1 ab.2 })
  else []

/-- Matches emitted for one candidate leaf (innerText pre-check, then the
per-text-node scan). -/
def matchRefsOfLeaf (t : DomNode) (pl : Path × DomNode) : List MatchRef :=
  if (innerTextOf pl.2).data.contains '$' then
    if (textNodesUnder pl.2).length = 0 then []
    else
      (withIdx 0 (textNodesUnder pl.2)).flatMap (fun ts =>
        matchRefsOfNode (getXPath t pl.1) ts.1 ts.2)
  else []

/-- JS_FIND_MATCHES: all matches under the content root (`none` when
`document.querySelector('.notion-page-content')` finds no root). -/
def findMatches (t : DomNode) (rp : Option Path) : List MatchRef :=
  match rp with
  | none => []
  | some rp => (candidatesOf t rp).flatMap (matchRefsOfLeaf t)

/-- Same computation with each MatchRef tagged by its candidate-leaf
ordinal (proof instrumentation for the ordering claim). -/
def findMatchesKeyed (t : DomNode) (rp : Option Path) : List (Nat × MatchRef) :=
  match rp with
  | none => []
  | some rp =>
      (withIdx 0 (candidatesOf t rp)).flatMap
        (fun li => (matchRefsOfLeaf t li.2).map (fun r => (li.1, r)))

/-- Example page: a root with one visible editable leaf over one text
node. -/
def egPage : DomNode :=
  DomNode.elem "html" "" false true false
    [DomNode.elem "div" "" true true true
      [DomNode.text "Energy is $$E=mc^2$$ always."]]

def egRef : MatchRef :=
  { xpath := Address.byPath [⟨"html", none⟩, ⟨"div", none⟩],
    nodeIndex := 0, start := 10, end_ := 20,
    preview := "Energy is $$E=mc^2$$ always.".data }

/-! ## Span selector (JS_SELECT_MATCH)

The selector's observable state: the document tree (owned by the external
renderer; the selector only reads it) plus the three pieces of state its
side effects touch — the scroll target (`scrollIntoView`), the current
selection (`removeAllRanges`/`addRange`, as the selected text node's path
with the range offsets), and the focused element (`focus()`). -/
structure PageState where
  tree : DomNode
  selection : Option (Path × Int × Int)
  focus : Option Path
  scroll : Option Path

inductive SelectResult where
  | ok
  | notFound
  | indexOutOfRange
  | invalidOffsets
deriving DecidableEq, Repr

/-- Text nodes (with paths) of the element resolved at `p`, recomputed
with the identical TreeWalker traversal used by the scanner. -/
def textNodesOfResolved (t : DomNode) (p : Path) : List (Path × String) :=
  match nodeAt t p with
  | some el => textNodesP el p
  | none => []

def ceAt (t : DomNode) (p : Path) : Bool :=
  match nodeAt t p with
  | some n => ceOf n
  | none => false

/-- Walk up from the element (reversed-path recursion): the nearest
ancestor-or-self with `contenteditable="true"`, if any; the walk stops at
the document root's parent (`focusEl` becomes null and no focus happens). -/
def findCEUp (t : DomNode) : List Nat → Option Path
  | [] => if ceAt t [] then some [] else none
  | i :: rest =>
      if ceAt t (i :: rest).reverse then some (i :: rest).reverse
      else findCEUp t rest

def focusTarget (t : DomNode) (p : Path) : Option Path :=
  findCEUp t p.reverse

/-- JS_SELECT_MATCH: resolve the element, scroll it into view, recompute
the text-node traversal, validate `nodeIndex` and the offsets, then set
the selection range and focus the nearest contenteditable ancestor.  The
result is the `{ok, error}` value; the state records the side effects in
program order. -/
def selectMatch (st : PageState) (args : MatchRef) : SelectResult × PageState :=
  match elementByXPath st.tree args.xpath with
  | none => (SelectResult.notFound, st)
  | some elPath =>
      let st1 : PageState := { st with scroll := some elPath }
      let textNodes := textNodesOfResolved st.tree elPath
      if hidx : args.nodeIndex < 0 ∨ (textNodes.length : Int) ≤ args.nodeIndex
      then (SelectResult.indexOutOfRange, st1)
      else
        let tn := textNodes.get ⟨args.nodeIndex.toNat, by omega⟩
        if args.start < 0 ∨ (tn.2.length : Int) < args.end_
            ∨ args.end_ ≤ args.start
        then (SelectResult.invalidOffsets, st1)
        else
          let st2 : PageState :=
            { st1 with selection := some (tn.1, args.start, args.end_) }
          let st3 : PageState :=
            match focusTarget st.tree elPath with
            | some fp => { st2 with focus := some fp }
            | none => st2
          (SelectResult.ok, st3)

/-- Page with a 2-text-node leaf (for the `nodeIndex = 99` rejection). -/
def egPage2 : DomNode :=
  DomNode.elem "html" "" false true false
    [DomNode.elem "div" "" true true true
      [DomNode.text "ab",
       DomNode.elem "span" "" false true false [DomNode.text "cd"]]]

def egState : PageState :=
  { tree := egPage, selection := none, focus := none, scroll := none }

def egState2 : PageState :=
  { tree := egPage2, selection := none, focus := none, scroll := none }

def egDivAddr : Address := Address.byPath [⟨"html", none⟩, ⟨"div", none⟩]

def badOffsetsRef : MatchRef :=
  { xpath := egDivAddr, nodeIndex := 0, start := 5, end_ := 3, preview := [] }

def badIndexRef : MatchRef :=
  { xpath := egDivAddr, nodeIndex := 99, start := 0, end_ := 1, preview := [] }

example : scanAll "Energy is $$E=mc^2$$ always.".data = [(10, 20)] := by decide

example : scanAll "$$a$$".data = [(0, 5)] := by decide

example : scanAll "$$a$$ and $b$".data = [(0, 5), (10, 13)] := by decide

example : scanAll "$$$$".data = [(0, 3)] := by decide

example : scanAll "$$a$b$$".data = [(0, 7)] := by decide

example : getXPath egTree [0, 2]
    = Address.byPath [⟨"html", none⟩, ⟨"div", none⟩, ⟨"span", some 2⟩] := by decide

example : elementByXPath egTree (getXPath egTree [0, 2]) = some [0, 2] := by decide

example : elementByXPath egTree (getXPath egTree [1]) = some [1] := by decide

example : findMatches egPage (some []) = [egRef] := by decide

/-! ### Basic bounds for the anchored matcher -/
theorem firstDollarIdx_lt {xs : List Char} {m : Nat}
    (h : firstDollarIdx xs = some m) : m < xs.length := by
  induction xs generalizing m with
  | nil => simp [firstDollarIdx] at h
  | cons c cs ih =>
      by_cases hc : c = '$'
      · simp [firstDollarIdx, hc] at h
        simp only [List.length_cons]
        omega
      · simp [firstDollarIdx, hc, Option.map_eq_some'] at h
        obtain ⟨m', hm', rfl⟩ := h
        have := ih hm'
        simp only [List.length_cons]
        omega

theorem firstPairIdx_lt {xs : List Char} {m : Nat}
    (h : firstPairIdx xs = some m) : m + 2 ≤ xs.length := by
  induction xs generalizing m with
  | nil => simp [firstPairIdx] at h
  | cons a t ih =>
      cases t with
      | nil => simp [firstPairIdx] at h
      | cons b cs =>
          by_cases hab : a = '$' ∧ b = '$'
          · simp [firstPairIdx, hab] at h
            simp [← h]
          · simp [firstPairIdx, hab, Option.map_eq_some'] at h
            obtain ⟨m', hm', rfl⟩ := h
            have := ih hm'
            simp at this ⊢
            omega

theorem tryMatch_bounds {rest : List Char} {L : Nat}
    (h : tryMatch rest = some L) : 3 ≤ L ∧ L ≤ rest.length := by
  match rest with
  | [] => simp [tryMatch] at h
  | [c] => simp [tryMatch] at h
  | c :: c2 :: t2 =>
      by_cases hc : c = '$'
      · by_cases hc2 : c2 = '$'
        · simp only [tryMatch, if_pos hc, if_pos hc2] at h
          cases hd : doubleLen t2 with
          | some L' =>
              rw [hd] at h
              cases h
              simp only [doubleLen, Option.map_eq_some'] at hd
              obtain ⟨m, hm, rfl⟩ := hd
              have := firstPairIdx_lt hm
              have ht2 : (t2.drop 1).length = t2.length - 1 := by simp
              simp
              omega
          | none =>
              rw [hd] at h
              simp only [singleLen, Option.map_eq_some'] at h
              obtain ⟨m, hm, rfl⟩ := h
              have := firstDollarIdx_lt hm
              simp at this
              simp
              omega
        · simp only [tryMatch, if_pos hc, if_neg hc2] at h
          simp only [singleLen, Option.map_eq_some'] at h
          obtain ⟨m, hm, rfl⟩ := h
          have := firstDollarIdx_lt hm
          simp at this
          simp
          omega
      · simp [tryMatch, hc] at h

theorem tryMatch_none_of_head {rest : List Char}
    (h : ∀ hd, rest.head? = some hd → hd ≠ '$') : tryMatch rest = none := by
  match rest with
  | [] => rfl
  | [c] => rfl
  | c :: c2 :: t2 =>
      have : c ≠ '$' := h c rfl
      simp [tryMatch, this]

theorem scanGo_fuel (s : List Char) :
    ∀ f1 f2 i, s.length ≤ i + f1 → s.length ≤ i + f2 →
      scanGo s f1 i = scanGo s f2 i := by
  intro f1
  induction f1 with
  | zero =>
      intro f2 i h1 h2
      cases f2 with
      | zero => rfl
      | succ g =>
          have : ¬ i < s.length := by omega
          simp [scanGo, this]
  | succ f ih =>
      intro f2 i h1 h2
      cases f2 with
      | zero =>
          have : ¬ i < s.length := by omega
          simp [scanGo, this]
      | succ g =>
          by_cases hi : i < s.length
          · simp only [scanGo, if_pos hi]
            cases hm : tryMatch (s.drop i) with
            | some L =>
                have hL := (tryMatch_bounds hm).1
                dsimp only
                rw [ih g (i + L) (by omega) (by omega)]
            | none =>
                dsimp only
                rw [ih g (i + 1) (by omega) (by omega)]
          · simp [scanGo, hi]

theorem scanFrom_stop {s : List Char} {i : Nat} (h : s.length ≤ i) :
    scanFrom s i = [] := by
  have : ¬ i < s.length := by omega
  simp [scanFrom, scanGo, this]

theorem scanFrom_skip {s : List Char} {i : Nat} (h : i < s.length)
    (hm : tryMatch (s.drop i) = none) : scanFrom s i = scanFrom s (i + 1) := by
  unfold scanFrom
  conv_lhs => rw [show s.length + 1 = s.length + 1 from rfl]
  rw [show scanGo s (s.length + 1) i = scanGo s (s.length) (i + 1) by
    simp only [scanGo, if_pos h, hm]]
  exact scanGo_fuel s s.length (s.length + 1) (i + 1) (by omega) (by omega)

theorem scanFrom_match {s : List Char} {i L : Nat} (h : i < s.length)
    (hm : tryMatch (s.drop i) = some L) :
    scanFrom s i = (i, i + L) :: scanFrom s (i + L) := by
  have hL := (tryMatch_bounds hm).1
  unfold scanFrom
  rw [show scanGo s (s.length + 1) i = (i, i + L) :: scanGo s (s.length) (i + L) by
    simp only [scanGo, if_pos h, hm]]
  rw [scanGo_fuel s s.length (s.length + 1) (i + L) (by omega) (by omega)]

theorem mem_scanGo {s : List Char} :
    ∀ fuel i a b, (a, b) ∈ scanGo s fuel i →
      i ≤ a ∧ a + 3 ≤ b ∧ b ≤ s.length ∧ tryMatch (s.drop a) = some (b - a) := by
  intro fuel
  induction fuel with
  | zero => intro i a b h; simp [scanGo] at h
  | succ f ih =>
      intro i a b h
      by_cases hi : i < s.length
      · simp only [scanGo, if_pos hi] at h
        cases hm : tryMatch (s.drop i) with
        | some L =>
            rw [hm] at h
            rcases List.mem_cons.mp h with heq | htail
            · rw [Prod.mk.injEq] at heq
              obtain ⟨rfl, rfl⟩ := heq
              have hb := tryMatch_bounds hm
              refine ⟨le_refl _, by omega, ?_, ?_⟩
              · have := hb.2
                have hd : (s.drop a).length = s.length - a := by simp
                omega
              · have : a + L - a = L := by omega
                rw [this, hm]
            · have := ih (i + L) a b htail
              have hb := tryMatch_bounds hm
              exact ⟨by omega, this.2.1, this.2.2.1, this.2.2.2⟩
        | none =>
            rw [hm] at h
            have := ih (i + 1) a b h
            exact ⟨by omega, this.2.1, this.2.2.1, this.2.2.2⟩
      · simp [scanGo, hi] at h

theorem mem_scanFrom {s : List Char} {i a b : Nat}
    (h : (a, b) ∈ scanFrom s i) :
    i ≤ a ∧ a + 3 ≤ b ∧ b ≤ s.length ∧ tryMatch (s.drop a) = some (b - a) :=
  mem_scanGo (s.length + 1) i a b h

theorem scanGo_pairwise {s : List Char} :
    ∀ fuel i, (scanGo s fuel i).Pairwise (fun x y => x.2 ≤ y.1) := by
  intro fuel
  induction fuel with
  | zero => intro i; simp [scanGo]
  | succ f ih =>
      intro i
      by_cases hi : i < s.length
      · simp only [scanGo, if_pos hi]
        cases hm : tryMatch (s.drop i) with
        | some L =>
            refine List.Pairwise.cons ?_ (ih (i + L))
            intro y hy
            have := mem_scanGo f (i + L) y.1 y.2 (by simpa using hy)
            simpa using this.1
        | none => exact ih (i + 1)
      · simp [scanGo, hi]

theorem scanAll_pairwise (s : List Char) :
    (scanAll s).Pairwise (fun x y => x.2 ≤ y.1) :=
  scanGo_pairwise (s.length + 1) 0

/-! ### Truncation behaviour of the lazy searches

These lemmas let the anchored matcher be replayed on just the matched
slice, showing a match is a self-contained delimiter span. -/
theorem firstDollarIdx_take {xs : List Char} {m : Nat}
    (h : firstDollarIdx xs = some m) :
    ∀ n, m < n → firstDollarIdx (xs.take n) = some m := by
  induction xs generalizing m with
  | nil => simp [firstDollarIdx] at h
  | cons c cs ih =>
      intro n hn
      by_cases hc : c = '$'
      · simp [firstDollarIdx, hc] at h
        cases n with
        | zero => omega
        | succ k => simp [List.take_succ_cons, firstDollarIdx, hc, ← h]
      · simp [firstDollarIdx, hc, Option.map_eq_some'] at h
        obtain ⟨m', hm', rfl⟩ := h
        cases n with
        | zero => omega
        | succ k =>
            simp [List.take_succ_cons, firstDollarIdx, hc,
              ih hm' k (by omega)]

theorem firstDollarIdx_none_take {xs : List Char}
    (h : firstDollarIdx xs = none) (n : Nat) :
    firstDollarIdx (xs.take n) = none := by
  induction xs generalizing n with
  | nil => simp [firstDollarIdx]
  | cons c cs ih =>
      by_cases hc : c = '$'
      · simp [firstDollarIdx, hc] at h
      · simp [firstDollarIdx, hc] at h
        cases n with
        | zero => simp [firstDollarIdx]
        | succ k => simp [List.take_succ_cons, firstDollarIdx, hc, ih h k]

theorem firstPairIdx_take {xs : List Char} {m : Nat}
    (h : firstPairIdx xs = some m) :
    ∀ n, m + 2 ≤ n → firstPairIdx (xs.take n) = some m := by
  induction xs generalizing m with
  | nil => simp [firstPairIdx] at h
  | cons a t ih =>
      intro n hn
      cases t with
      | nil => simp [firstPairIdx] at h
      | cons b cs =>
          by_cases hab : a = '$' ∧ b = '$'
          · simp [firstPairIdx, hab] at h
            obtain ⟨k, rfl⟩ : ∃ k, n = k + 2 := ⟨n - 2, by omega⟩
            simp [List.take_succ_cons, firstPairIdx, hab, ← h]
          · simp [firstPairIdx, hab, Option.map_eq_some'] at h
            obtain ⟨m', hm', rfl⟩ := h
            obtain ⟨j, rfl⟩ : ∃ j, n = j + 2 := ⟨n - 2, by omega⟩
            have hrec := ih hm' (j + 1) (by omega)
            simp only [List.take_succ_cons] at hrec ⊢
            simp [firstPairIdx, hab, hrec]

theorem firstPairIdx_none_take {xs : List Char}
    (h : firstPairIdx xs = none) (n : Nat) :
    firstPairIdx (xs.take n) = none := by
  induction xs generalizing n with
  | nil => simp [firstPairIdx]
  | cons a t ih =>
      cases t with
      | nil => cases n <;> simp [firstPairIdx]
      | cons b cs =>
          by_cases hab : a = '$' ∧ b = '$'
          · simp [firstPairIdx, hab] at h
          · simp [firstPairIdx, hab] at h
            match n with
            | 0 => simp [firstPairIdx]
            | 1 => simp [firstPairIdx]
            | j + 2 =>
                have hrec := ih h (j + 1)
                simp only [List.take_succ_cons] at hrec ⊢
                simp [firstPairIdx, hab, hrec]

theorem drop_one_take {α : Type} (l : List α) (n : Nat) :
    (l.take (n + 1)).drop 1 = (l.drop 1).take n := by
  cases l <;> simp

/-- Replaying the anchored matcher on just the matched slice reproduces the
match: a produced match is a self-contained delimiter span. -/
theorem tryMatch_take {rest : List Char} {L : Nat}
    (h : tryMatch rest = some L) : tryMatch (rest.take L) = some L := by
  match rest with
  | [] => simp [tryMatch] at h
  | [c] => simp [tryMatch] at h
  | c :: c2 :: t2 =>
      by_cases hc : c = '$'
      · by_cases hc2 : c2 = '$'
        · simp only [tryMatch, if_pos hc, if_pos hc2] at h
          cases hd : doubleLen t2 with
          | some L' =>
              rw [hd] at h
              cases h
              simp only [doubleLen, Option.map_eq_some'] at hd
              obtain ⟨m, hm, rfl⟩ := hd
              have h5 : m + 5 = (m + 3) + 1 + 1 := by omega
              rw [h5, List.take_succ_cons, List.take_succ_cons, ← h5]
              have hfp : firstPairIdx ((t2.take (m + 3)).drop 1) = some m := by
                rw [show m + 3 = (m + 2) + 1 by omega, drop_one_take]
                exact firstPairIdx_take hm (m + 2) (le_refl _)
              simp only [List.drop_one] at hfp
              simp [tryMatch, hc, hc2, doubleLen, hfp]
          | none =>
              rw [hd] at h
              simp only [singleLen, List.drop_succ_cons, List.drop_zero,
                Option.map_eq_some'] at h
              obtain ⟨m, hm, rfl⟩ := h
              simp only [doubleLen, Option.map_eq_none'] at hd
              have h3 : m + 3 = (m + 1) + 1 + 1 := by omega
              rw [h3, List.take_succ_cons, List.take_succ_cons, ← h3]
              have hfp : firstPairIdx ((t2.take (m + 1)).drop 1) = none := by
                rw [drop_one_take]
                exact firstPairIdx_none_take hd m
              simp only [List.drop_one] at hfp
              have hfd : firstDollarIdx (t2.take (m + 1)) = some m :=
                firstDollarIdx_take hm (m + 1) (by omega)
              simp [tryMatch, hc, hc2, doubleLen, hfp, singleLen, hfd]
        · simp only [tryMatch, if_pos hc, if_neg hc2] at h
          simp only [singleLen, List.drop_succ_cons, List.drop_zero,
            Option.map_eq_some'] at h
          obtain ⟨m, hm, rfl⟩ := h
          have h3 : m + 3 = (m + 1) + 1 + 1 := by omega
          rw [h3, List.take_succ_cons, List.take_succ_cons, ← h3]
          have hfd : firstDollarIdx (t2.take (m + 1)) = some m :=
            firstDollarIdx_take hm (m + 1) (by omega)
          simp [tryMatch, hc, hc2, singleLen, hfd]
      · simp [tryMatch, hc] at h

/-- Every pair produced by the scan delimits a self-contained delimiter
span of the scanned text. -/
theorem isDelimSpan_of_scan {s : List Char} {i a b : Nat}
    (h : (a, b) ∈ scanFrom s i) : isDelimSpan (sliceBetween s a b) := by
  obtain ⟨hia, hab, hbs, hm⟩ := mem_scanFrom h
  unfold isDelimSpan sliceBetween
  rw [List.drop_take]
  have hlen : ((s.drop a).take (b - a)).length = b - a := by
    simp only [List.length_take, List.length_drop]
    omega
  rw [hlen]
  exact tryMatch_take hm

/-! ### Claim C1: double-dollar alternative first -/
theorem firstPairIdx_append_pair {xs : List Char} (ys : List Char)
    (hx : '$' ∉ xs) : firstPairIdx (xs ++ '$' :: '$' :: ys) = some xs.length := by
  induction xs with
  | nil => simp [firstPairIdx]
  | cons x xt ih =>
      have hx0 : x ≠ '$' := fun h => hx (h ▸ List.mem_cons_self x xt)
      have hxt : '$' ∉ xt := fun h => hx (List.mem_cons_of_mem x h)
      obtain ⟨y, l, heq⟩ : ∃ y l, xt ++ '$' :: '$' :: ys = y :: l := by
        cases xt <;> exact ⟨_, _, rfl⟩
      simp only [List.cons_append, heq]
      have : ¬ (x = '$' ∧ y = '$') := fun h => hx0 h.1
      simp only [firstPairIdx, if_neg this, ← heq, ih hxt, Option.map_some']
      simp

theorem scanFrom_skip_run (s : List Char) :
    ∀ d i, (∀ j, i ≤ j → j < i + d → tryMatch (s.drop j) = none) →
      scanFrom s i = scanFrom s (i + d) := by
  intro d
  induction d with
  | zero => intro i _; rfl
  | succ d ih =>
      intro i hnone
      by_cases hi : i < s.length
      · rw [scanFrom_skip hi (hnone i (le_refl _) (by omega))]
        rw [ih (i + 1) (fun j h1 h2 => hnone j (by omega) (by omega))]
        congr 1
        omega
      · rw [scanFrom_stop (by omega), scanFrom_stop (by omega)]

/-- Claim C1, corrected part.  When the scan position reaches the opening
of a well-formed `$$...$$` block (here: the block follows a dollar-free
run of text, with dollar-free non-empty content), the double-dollar
alternative is tried first and wins, so the block is matched as one
double-dollar span covering exactly the block, never as two `$...$`
matches. -/
theorem C1_double_before_single_amended (p c s2 : List Char)
    (hp : '$' ∉ p) (hc : '$' ∉ c) (hc0 : c ≠ []) :
    (scanAll (p ++ '$' :: '$' :: (c ++ '$' :: '$' :: s2))).head? =
      some (p.length, p.length + (c.length + 4)) := by
  set S : List Char := p ++ '$' :: '$' :: (c ++ '$' :: '$' :: s2) with hS
  have hlen : S.length = p.length + (c.length + (s2.length + 4)) := by
    simp [hS]
    omega
  have hskip : ∀ j, 0 ≤ j → j < 0 + p.length → tryMatch (S.drop j) = none := by
    intro j _ hj
    apply tryMatch_none_of_head
    intro hd hhd hdollar
    subst hdollar
    apply hp
    have hdrop : S.drop j = p.drop j ++ '$' :: '$' :: (c ++ '$' :: '$' :: s2) := by
      rw [hS, List.drop_append_of_le_length (by omega)]
    rw [hdrop] at hhd
    have hne : p.drop j ≠ [] := by
      intro hnil
      have := congrArg List.length hnil
      simp at this
      omega
    rw [List.head?_append_of_ne_nil _ hne, List.head?_eq_head hne] at hhd
    have hmem : '$' ∈ p.drop j :=
      Option.some.inj hhd ▸ List.head_mem hne
    exact List.mem_of_mem_drop hmem
  have h1 : scanAll S = scanFrom S p.length := by
    unfold scanAll
    have := scanFrom_skip_run S p.length 0 hskip
    simpa using this
  obtain ⟨ch, ct, rfl⟩ : ∃ ch ct, c = ch :: ct := by
    cases c with
    | nil => exact absurd rfl hc0
    | cons ch ct => exact ⟨ch, ct, rfl⟩
  have hdropP : S.drop p.length = '$' :: '$' :: (ch :: ct ++ '$' :: '$' :: s2) := by
    rw [hS, List.drop_left]
  have hct : '$' ∉ ct := fun h => hc (List.mem_cons_of_mem ch h)
  have htm : tryMatch (S.drop p.length) = some (ct.length + 5) := by
    rw [hdropP]
    have hfp : firstPairIdx (ct ++ '$' :: '$' :: s2) = some ct.length :=
      firstPairIdx_append_pair s2 hct
    simp [tryMatch, doubleLen, hfp]
  have hplen : p.length < S.length := by omega
  rw [h1, scanFrom_match hplen htm]
  simp only [List.head?_cons, Option.some.injEq, Prod.mk.injEq, List.length_cons]

/-- Claim C1 as frozen is false: the text `"$a$$b$$c$"` contains the
well-formed double-dollar block `"$$b$$"` at positions `[2, 7)`, yet the
repeated leftmost-first scan emits three single-dollar matches and never
matches the block as one double-dollar span (a single `$` earlier in the
text captures the block's opening dollar). -/
theorem C1_block_split_counterexample :
    sliceBetween "$a$$b$$c$".data 2 7 = "$$b$$".data ∧
    scanAll "$a$$b$$c$".data = [(0, 3), (3, 6), (6, 9)] ∧
    (2, 7) ∉ scanAll "$a$$b$$c$".data := by decide

theorem C1_double_before_single_witness :
    '$' ∉ "ab".data ∧ '$' ∉ "x".data ∧ "x".data ≠ [] ∧
    (scanAll ("ab".data ++ '$' :: '$' :: ("x".data ++ '$' :: '$' :: "cd".data))).head?
      = some (2, 7) := by
  refine ⟨by decide, by decide, by decide, ?_⟩
  have h := C1_double_before_single_amended "ab".data "x".data "cd".data
    (by decide) (by decide) (by decide)
  have he : ("ab".data.length, "ab".data.length + ("x".data.length + 4))
      = ((2 : Nat), (7 : Nat)) := by decide
  rw [he] at h
  exact h

theorem processLoop_succ_nil {σ α : Type} {ex : σ → σ} {scan : σ → List α}
    {sel : σ → α → Bool} {trig : σ → σ} {g : Nat} {st : σ}
    (heq : scan (ex st) = []) :
    processLoop ex scan sel trig (g + 1) st = (0, 1) := by
  unfold processLoop
  rw [heq]

theorem processLoop_succ_cons_true {σ α : Type} {ex : σ → σ}
    {scan : σ → List α} {sel : σ → α → Bool} {trig : σ → σ} {g : Nat} {st : σ}
    {m : α} {ms : List α}
    (heq : scan (ex st) = m :: ms) (hs : sel (ex st) m = true) :
    processLoop ex scan sel trig (g + 1) st
      = ((processLoop ex scan sel trig g (trig (ex st))).1 + 1,
         (processLoop ex scan sel trig g (trig (ex st))).2 + 1) := by
  conv_lhs => unfold processLoop
  rw [heq]
  simp [hs]

theorem processLoop_succ_cons_false {σ α : Type} {ex : σ → σ}
    {scan : σ → List α} {sel : σ → α → Bool} {trig : σ → σ} {g : Nat} {st : σ}
    {m : α} {ms : List α}
    (heq : scan (ex st) = m :: ms) (hs : sel (ex st) m = false) :
    processLoop ex scan sel trig (g + 1) st
      = ((processLoop ex scan sel trig g (ex st)).1,
         (processLoop ex scan sel trig g (ex st)).2 + 1) := by
  conv_lhs => unfold processLoop
  rw [heq]
  simp [hs]

/-- Claim C2: if the page state carries `N` pending matches (the scan is
empty exactly when the match count is zero), expansion does not change the
count, selection always succeeds, and the external trigger removes exactly
the triggered match (the count drops by one per trigger), then for
`N < max_passes` the controller processes exactly `N` matches and performs
`N + 1` scans: the final pass's scan finds zero matches and stops the
loop. -/
theorem C2_controller_termination {σ α : Type} (ex : σ → σ) (scan : σ → List α)
    (sel : σ → α → Bool) (trig : σ → σ) (count : σ → Nat)
    (hexp : ∀ st, count (ex st) = count st)
    (hscan : ∀ st, scan st = [] ↔ count st = 0)
    (hsel : ∀ st m, sel st m = true)
    (htrig : ∀ st, count st ≠ 0 → count (trig st) = count st - 1) :
    ∀ N max_passes st, count st = N → N < max_passes →
      process_all_matches ex scan sel trig max_passes st = N ∧
      (processLoop ex scan sel trig max_passes st).2 = N + 1 := by
  intro N
  induction N with
  | zero =>
      intro mp st h0 hmp
      obtain ⟨g, rfl⟩ : ∃ g, mp = g + 1 := ⟨mp - 1, by omega⟩
      have hse : scan (ex st) = [] := (hscan _).mpr (by rw [hexp]; exact h0)
      unfold process_all_matches
      rw [processLoop_succ_nil hse]
      exact ⟨rfl, rfl⟩
  | succ N ih =>
      intro mp st hc hmp
      obtain ⟨g, rfl⟩ : ∃ g, mp = g + 1 := ⟨mp - 1, by omega⟩
      have hne : count (ex st) ≠ 0 := by rw [hexp]; omega
      obtain ⟨m, ms, heq⟩ : ∃ m ms, scan (ex st) = m :: ms := by
        cases h : scan (ex st) with
        | nil => exact absurd ((hscan _).mp h) hne
        | cons m ms => exact ⟨m, ms, rfl⟩
      have hcount : count (trig (ex st)) = N := by
        rw [htrig _ hne, hexp, hc]
        omega
      obtain ⟨ih1, ih2⟩ := ih g (trig (ex st)) hcount (by omega)
      unfold process_all_matches at ih1 ⊢
      rw [processLoop_succ_cons_true heq (hsel _ _)]
      exact ⟨by rw [ih1], by rw [ih2]⟩

/-- Claim C7: whatever the expansion, scanner, selector and trigger do
(including a trigger that never removes the match), the controller performs
at most `max_passes` passes and returns `processed ≤ max_passes`. -/
theorem C7_pass_and_processed_bound {σ α : Type} (ex : σ → σ)
    (scan : σ → List α) (sel : σ → α → Bool) (trig : σ → σ) :
    ∀ max_passes st,
      process_all_matches ex scan sel trig max_passes st ≤ max_passes ∧
      (processLoop ex scan sel trig max_passes st).2 ≤ max_passes := by
  intro mp
  induction mp with
  | zero => intro st; exact ⟨le_refl _, le_refl _⟩
  | succ g ih =>
      intro st
      unfold process_all_matches
      cases heq : scan (ex st) with
      | nil =>
          rw [processLoop_succ_nil heq]
          exact ⟨by omega, by omega⟩
      | cons m ms =>
          cases hs : sel (ex st) m with
          | true =>
              rw [processLoop_succ_cons_true heq hs]
              have := ih (trig (ex st))
              unfold process_all_matches at this
              exact ⟨by omega, by omega⟩
          | false =>
              rw [processLoop_succ_cons_false heq hs]
              have := ih (ex st)
              unfold process_all_matches at this
              exact ⟨by omega, by omega⟩

theorem C2_controller_termination_witness :
    process_all_matches (id : Nat → Nat) (fun n => List.replicate n ())
      (fun _ _ => true) (fun n => n - 1) 4 2 = 2 ∧
    (processLoop (id : Nat → Nat) (fun n => List.replicate n ())
      (fun _ _ => true) (fun n => n - 1) 4 2).2 = 3 := by
  have h := C2_controller_termination (id : Nat → Nat)
    (fun n => List.replicate n ()) (fun _ _ => true) (fun n => n - 1) id
    (fun st => rfl) (fun st => by simp) (fun st m => rfl) (fun st h => rfl)
    2 4 2 rfl (by omega)
  exact ⟨h.1, h.2⟩

/-! ### Exactness of structural path resolution (claims C3, C4) -/
theorem sameTagFrom_length (t : String) :
    ∀ (cs : List DomNode) (k : Nat),
      (sameTagFrom t cs k).length = (cs.filter (hasTag t)).length := by
  intro cs
  induction cs with
  | nil => intro k; rfl
  | cons c cs ih =>
      intro k
      by_cases hc : hasTag t c
      · simp [sameTagFrom, hc, List.filter_cons, ih]
      · simp [sameTagFrom, hc, List.filter_cons, ih]

theorem sameTagFrom_getElem (t : String) :
    ∀ (cs : List DomNode) (k j : Nat) (c : DomNode),
      cs[j]? = some c → hasTag t c = true →
      (sameTagFrom t cs k)[((cs.take j).filter (hasTag t)).length]?
        = some (k + j, c) := by
  intro cs
  induction cs with
  | nil => intro k j c h _; simp at h
  | cons d ds ih =>
      intro k j c h hc
      cases j with
      | zero =>
          simp at h
          subst h
          simp [sameTagFrom, hc]
      | succ j' =>
          simp only [List.getElem?_cons_succ] at h
          have hrec := ih (k + 1) j' c h hc
          rw [show k + 1 + j' = k + (j' + 1) by omega] at hrec
          cases hd : hasTag t d with
          | true =>
              have hidx : ((d :: ds).take (j' + 1)).filter (hasTag t)
                  = d :: (ds.take j').filter (hasTag t) := by
                simp [List.take_succ_cons, List.filter_cons, hd]
              have hstep : sameTagFrom t (d :: ds) k
                  = (k, d) :: sameTagFrom t ds (k + 1) := by
                simp [sameTagFrom, hd]
              rw [hidx, hstep]
              simpa using hrec
          | false =>
              have hidx : ((d :: ds).take (j' + 1)).filter (hasTag t)
                  = (ds.take j').filter (hasTag t) := by
                simp [List.take_succ_cons, List.filter_cons, hd]
              have hstep : sameTagFrom t (d :: ds) k
                  = sameTagFrom t ds (k + 1) := by
                simp [sameTagFrom, hd]
              rw [hidx, hstep]
              exact hrec

theorem mem_sameTagFrom (t : String) :
    ∀ (cs : List DomNode) (k : Nat) (i : Nat) (c : DomNode),
      ((i, c) ∈ sameTagFrom t cs k) ↔
        ∃ j, i = k + j ∧ cs[j]? = some c ∧ hasTag t c = true := by
  intro cs
  induction cs with
  | nil =>
      intro k i c
      simp [sameTagFrom]
  | cons d ds ih =>
      intro k i c
      cases hd : hasTag t d with
      | true =>
        rw [show sameTagFrom t (d :: ds) k = (k, d) :: sameTagFrom t ds (k + 1)
          by simp [sameTagFrom, hd]]
        simp only [List.mem_cons]
        constructor
        · rintro (heq | hmem)
          · rw [Prod.mk.injEq] at heq
            obtain ⟨rfl, rfl⟩ := heq
            exact ⟨0, by omega, by simp, hd⟩
          · obtain ⟨j, rfl, hj, hjc⟩ := (ih (k + 1) i c).mp hmem
            exact ⟨j + 1, by omega, by simpa using hj, hjc⟩
        · rintro ⟨j, rfl, hj, hjc⟩
          cases j with
          | zero =>
              simp at hj
              subst hj
              left
              simp
          | succ j' =>
              right
              refine (ih (k + 1) (k + (j' + 1)) c).mpr ⟨j', by omega, ?_, hjc⟩
              simpa using hj
      | false =>
        rw [show sameTagFrom t (d :: ds) k = sameTagFrom t ds (k + 1)
          by simp [sameTagFrom, hd]]
        rw [ih (k + 1) i c]
        constructor
        · rintro ⟨j, rfl, hj, hjc⟩
          exact ⟨j + 1, by omega, by simpa using hj, hjc⟩
        · rintro ⟨j, rfl, hj, hjc⟩
          cases j with
          | zero =>
              simp at hj
              subst hj
              rw [hjc] at hd
              simp at hd
          | succ j' =>
              exact ⟨j', by omega, by simpa using hj, hjc⟩

theorem isElemB_of_child {n c : DomNode} {i : Nat}
    (h : (childrenOf n)[i]? = some c) : isElemB n = true := by
  cases n with
  | text s => simp [childrenOf] at h
  | elem t id lf v ce cs => rfl

theorem isElemB_of_nodeAt_child {c e : DomNode} {rest : Path}
    (h : nodeAt c rest = some e) (helem : isElemB e = true) :
    isElemB c = true := by
  cases rest with
  | nil =>
      simp [nodeAt] at h
      exact h ▸ helem
  | cons j r =>
      unfold nodeAt at h
      cases hc : (childrenOf c)[j]? with
      | some d => exact isElemB_of_child hc
      | none => rw [hc] at h; simp at h

/-- The segment `getXPath` writes for the child at index `i` resolves, via
an XPath child step, to exactly that child. -/
theorem segStep_of_child {n c : DomNode} {q : Path} {i : Nat}
    (hc : (childrenOf n)[i]? = some c) (he : isElemB c = true) :
    segStep (q, n)
      ⟨tagOf c,
        if 1 < ((childrenOf n).filter (hasTag (tagOf c))).length
        then some (1 + (((childrenOf n).take i).filter (hasTag (tagOf c))).length)
        else none⟩
      = [(q ++ [i], c)] := by
  have htag : hasTag (tagOf c) c = true := by simp [hasTag, he]
  by_cases hnb : 1 < ((childrenOf n).filter (hasTag (tagOf c))).length
  · rw [if_pos hnb]
    unfold segStep
    dsimp only
    have hget := sameTagFrom_getElem (tagOf c) (childrenOf n) 0 i c hc htag
    rw [show (1 + (((childrenOf n).take i).filter (hasTag (tagOf c))).length) - 1
        = (((childrenOf n).take i).filter (hasTag (tagOf c))).length by omega]
    rw [if_neg (by omega)]
    rw [List.getElem?_map]
    unfold sameTagChildren
    rw [hget]
    simp
  · rw [if_neg hnb]
    unfold segStep
    dsimp only
    have hlen : (sameTagChildren n (tagOf c)).length
        = ((childrenOf n).filter (hasTag (tagOf c))).length :=
      sameTagFrom_length (tagOf c) (childrenOf n) 0
    have hmem : (i, c) ∈ sameTagChildren n (tagOf c) :=
      (mem_sameTagFrom (tagOf c) (childrenOf n) 0 i c).mpr
        ⟨i, by omega, hc, htag⟩
    have hpos : 0 < (sameTagChildren n (tagOf c)).length :=
      List.length_pos.mpr (List.ne_nil_of_mem hmem)
    have hone : (sameTagChildren n (tagOf c)).length = 1 := by omega
    obtain ⟨x, hx⟩ := List.length_eq_one.mp hone
    rw [hx] at hmem
    simp at hmem
    rw [hx, ← hmem]
    simp

/-- Folding the XPath steps written by `segsGo` over the singleton node set
containing the starting element lands on exactly the addressed node. -/
theorem resolveFold_of_segsGo :
    ∀ (p : Path) (n : DomNode) (q : Path) (e : DomNode),
      nodeAt n p = some e → isElemB e = true →
      List.foldl (fun set seg => set.flatMap (fun pn => segStep pn seg))
        [(q, n)] (segsGo n p) = [(q ++ p, e)] := by
  intro p
  induction p with
  | nil =>
      intro n q e he _
      simp [nodeAt] at he
      simp [segsGo, he]
  | cons i rest ih =>
      intro n q e he helem
      unfold nodeAt at he
      cases hc : (childrenOf n)[i]? with
      | none => rw [hc] at he; simp at he
      | some c =>
          rw [hc] at he
          have hce : isElemB c = true := isElemB_of_nodeAt_child he helem
          unfold segsGo
          rw [hc]
          dsimp only
          rw [if_pos hce]
          rw [List.foldl_cons]
          have hstep : ([((q : Path), n)].flatMap (fun pn => segStep pn
              ⟨tagOf c,
                if 1 < ((childrenOf n).filter (hasTag (tagOf c))).length
                then some (1 + (((childrenOf n).take i).filter
                  (hasTag (tagOf c))).length)
                else none⟩))
              = [(q ++ [i], c)] := by
            rw [List.flatMap_cons, List.flatMap_nil, List.append_nil]
            exact segStep_of_child hc hce
          rw [hstep, ih c (q ++ [i]) e he helem]
          simp

mutual

theorem mem_preorderElems : ∀ (n : DomNode) (base q : Path) (m : DomNode),
    ((q, m) ∈ preorderElems n base) ↔
      ∃ r, q = base ++ r ∧ nodeAt n r = some m ∧ isElemB m = true
  | DomNode.text s, base, q, m => by
      simp only [preorderElems, List.not_mem_nil, false_iff]
      rintro ⟨r, hq, hn, he⟩
      cases r with
      | nil =>
          simp [nodeAt] at hn
          rw [← hn] at he
          simp [isElemB] at he
      | cons j r' =>
          unfold nodeAt at hn
          simp [childrenOf] at hn
  | DomNode.elem tg idv lf v ce cs, base, q, m => by
      rw [show preorderElems (DomNode.elem tg idv lf v ce cs) base
          = (base, DomNode.elem tg idv lf v ce cs) :: preorderElemsList cs base 0
        from rfl]
      rw [List.mem_cons, mem_preorderElemsList cs base 0 q m]
      constructor
      · rintro (heq | ⟨j, c, r, hj, hq, hn, hel⟩)
        · rw [Prod.mk.injEq] at heq
          obtain ⟨rfl, rfl⟩ := heq
          exact ⟨[], by simp, by simp [nodeAt], rfl⟩
        · refine ⟨j :: r, by simpa using hq, ?_, hel⟩
          unfold nodeAt
          rw [show childrenOf (DomNode.elem tg idv lf v ce cs) = cs from rfl, hj]
          exact hn
      · rintro ⟨r, rfl, hn, hel⟩
        cases r with
        | nil =>
            left
            simp [nodeAt] at hn
            simp [hn]
        | cons j r' =>
            right
            unfold nodeAt at hn
            rw [show childrenOf (DomNode.elem tg idv lf v ce cs) = cs from rfl] at hn
            cases hj : cs[j]? with
            | none => rw [hj] at hn; simp at hn
            | some c =>
                rw [hj] at hn
                exact ⟨j, c, r', hj, by simp, hn, hel⟩

theorem mem_preorderElemsList :
    ∀ (cs : List DomNode) (base : Path) (k : Nat) (q : Path) (m : DomNode),
    ((q, m) ∈ preorderElemsList cs base k) ↔
      ∃ j c r, cs[j]? = some c ∧ q = base ++ (k + j) :: r ∧
        nodeAt c r = some m ∧ isElemB m = true
  | [], base, k, q, m => by
      simp only [preorderElemsList, List.not_mem_nil, false_iff]
      rintro ⟨j, c, r, hj, _⟩
      simp at hj
  | c0 :: cs', base, k, q, m => by
      rw [show preorderElemsList (c0 :: cs') base k
          = preorderElems c0 (base ++ [k]) ++ preorderElemsList cs' base (k + 1)
        from rfl]
      rw [List.mem_append, mem_preorderElems c0 (base ++ [k]) q m,
        mem_preorderElemsList cs' base (k + 1) q m]
      constructor
      · rintro (⟨r, rfl, hn, hel⟩ | ⟨j, c, r, hj, rfl, hn, hel⟩)
        · exact ⟨0, c0, r, by simp, by simp, hn, hel⟩
        · refine ⟨j + 1, c, r, by simpa using hj, ?_, hn, hel⟩
          rw [show k + 1 + j = k + (j + 1) by omega]
      · rintro ⟨j, c, r, hj, rfl, hn, hel⟩
        cases j with
        | zero =>
            left
            simp at hj
            subst hj
            exact ⟨r, by simp, hn, hel⟩
        | succ j' =>
            right
            refine ⟨j', c, r, by simpa using hj, ?_, hn, hel⟩
            rw [show k + 1 + j' = k + (j' + 1) by omega]

end

/-- Claim C3, corrected part.  For any element `e` of an unchanged tree,
decoding the encoded address resolves back to exactly `e` — provided that,
when `e` carries a non-empty id (so `getXPath` takes the id shortcut), no
other element of the tree carries that id.  Without that proviso the claim
fails, see the counterexample. -/
theorem C3_decode_encode_amended (t : DomNode) (p : Path) (e : DomNode)
    (he : nodeAt t p = some e) (helem : isElemB e = true)
    (hid : idOf e ≠ "" →
      ∀ q e2, nodeAt t q = some e2 → isElemB e2 = true →
        idOf e2 = idOf e → q = p) :
    elementByXPath t (getXPath t p) = some p := by
  unfold getXPath
  rw [he]
  change elementByXPath t (if idOf e ≠ "" then Address.byId (idOf e)
    else Address.byPath (⟨tagOf t, none⟩ :: segsGo t p)) = some p
  by_cases hide : idOf e ≠ ""
  · rw [if_pos hide]
    unfold elementByXPath
    have hmem : (p, e) ∈ preorderElems t [] :=
      (mem_preorderElems t [] p e).mpr ⟨p, by simp, he, helem⟩
    cases hfind : (preorderElems t []).find? (fun pn => idOf pn.2 == idOf e) with
    | none =>
        have hnone := List.find?_eq_none.mp hfind (p, e) hmem
        simp at hnone
    | some x =>
        have hx := List.find?_some hfind
        have hxmem : (x.1, x.2) ∈ preorderElems t [] :=
          List.mem_of_find?_eq_some hfind
        obtain ⟨r, hq, hn, hel⟩ := (mem_preorderElems t [] x.1 x.2).mp hxmem
        simp at hq
        subst hq
        have hxp : x.1 = p := hid hide x.1 x.2 hn hel (by simpa using hx)
        simp only [hfind, Option.map_some']
        rw [hxp]
  · rw [if_neg hide]
    unfold elementByXPath resolveSegs
    have hroot : isElemB t = true := isElemB_of_nodeAt_child he helem
    have hinit : (if isElemB t && (tagOf t == tagOf t)
        && (match (none : Option Nat) with | none => true | some k => k == 1)
        then [(([] : Path), t)] else []) = [(([] : Path), t)] := by
      simp [hroot]
    dsimp only
    rw [hinit, resolveFold_of_segsGo p t [] e he helem]
    simp

/-- Claim C3 as frozen is false: in an unchanged tree with duplicate ids,
encoding the second `div#x` takes the id shortcut, and decoding resolves to
the FIRST element with that id (FIRST_ORDERED_NODE_TYPE), a different
element. -/
theorem C3_duplicate_id_counterexample :
    getXPath dupIdTree [1] = Address.byId "x" ∧
    elementByXPath dupIdTree (getXPath dupIdTree [1]) = some [0] ∧
    ([0] : Path) ≠ [1] := by decide

theorem C3_decode_encode_witness :
    elementByXPath egTree (getXPath egTree [1]) = some [1] :=
  C3_decode_encode_amended egTree [1]
    (DomNode.elem "section" "" false true false [])
    rfl rfl (fun h => absurd rfl h)

theorem sameTagFrom_getElem_inv (t : String) :
    ∀ (cs : List DomNode) (k m i : Nat) (c : DomNode),
      (sameTagFrom t cs k)[m]? = some (i, c) →
      ∃ j, i = k + j ∧ cs[j]? = some c ∧ hasTag t c = true ∧
        ((cs.take j).filter (hasTag t)).length = m := by
  intro cs
  induction cs with
  | nil => intro k m i c h; simp [sameTagFrom] at h
  | cons d ds ih =>
      intro k m i c h
      cases hd : hasTag t d with
      | true =>
          rw [show sameTagFrom t (d :: ds) k
              = (k, d) :: sameTagFrom t ds (k + 1) by simp [sameTagFrom, hd]] at h
          cases m with
          | zero =>
              simp at h
              obtain ⟨rfl, rfl⟩ := h
              exact ⟨0, by omega, by simp, hd, by simp⟩
          | succ m' =>
              simp only [List.getElem?_cons_succ] at h
              obtain ⟨j, rfl, hj, hjc, hcnt⟩ := ih (k + 1) m' i c h
              refine ⟨j + 1, by omega, by simpa using hj, hjc, ?_⟩
              simp [List.take_succ_cons, List.filter_cons, hd, hcnt]
      | false =>
          rw [show sameTagFrom t (d :: ds) k
              = sameTagFrom t ds (k + 1) by simp [sameTagFrom, hd]] at h
          obtain ⟨j, rfl, hj, hjc, hcnt⟩ := ih (k + 1) m i c h
          refine ⟨j + 1, by omega, by simpa using hj, hjc, ?_⟩
          simp [List.take_succ_cons, List.filter_cons, hd, hcnt]

theorem mem_segStep {pn : Path × DomNode} {seg : Segment} {q2 : Path}
    {c : DomNode} :
    ((q2, c) ∈ segStep pn seg) ↔
      ∃ i, q2 = pn.1 ++ [i] ∧ (childrenOf pn.2)[i]? = some c ∧
        segMatchesAt pn.2 seg i = true := by
  obtain ⟨q0, n0⟩ := pn
  unfold segStep
  dsimp only
  cases hord : seg.ord with
  | none =>
      simp only [List.mem_map]
      constructor
      · rintro ⟨⟨i, c0⟩, hmem, heq⟩
        rw [Prod.mk.injEq] at heq
        obtain ⟨rfl, rfl⟩ := heq
        obtain ⟨j, rfl, hj, hjc⟩ :=
          (mem_sameTagFrom seg.tag (childrenOf n0) 0 _ _).mp hmem
        refine ⟨0 + j, rfl, by simpa using hj, ?_⟩
        unfold segMatchesAt
        rw [show (childrenOf n0)[0 + j]? = (childrenOf n0)[j]? by simp, hj,
          hord]
        simp [hjc]
      · rintro ⟨i, rfl, hi, hmatch⟩
        refine ⟨(i, c), ?_, rfl⟩
        unfold segMatchesAt at hmatch
        rw [hi, hord] at hmatch
        simp at hmatch
        exact (mem_sameTagFrom seg.tag (childrenOf n0) 0 i c).mpr
          ⟨i, by omega, hi, hmatch⟩
  | some k =>
      dsimp only
      by_cases hk : k = 0
      · subst hk
        rw [if_pos rfl]
        constructor
        · intro h; simp at h
        · rintro ⟨i, rfl, hi, hmatch⟩
          unfold segMatchesAt at hmatch
          rw [hi, hord] at hmatch
          simp only [Bool.and_eq_true, beq_iff_eq] at hmatch
          exact absurd hmatch.2 (by omega)
      · rw [if_neg hk]
        cases hget : (List.map (fun ic => (q0 ++ [ic.1], ic.2))
            (sameTagChildren n0 seg.tag))[k - 1]? with
        | none =>
            constructor
            · intro h; simp at h
            · rintro ⟨i, rfl, hi, hmatch⟩
              unfold segMatchesAt at hmatch
              rw [hi, hord] at hmatch
              simp only [Bool.and_eq_true, beq_iff_eq] at hmatch
              obtain ⟨htg, hkeq⟩ := hmatch
              have := sameTagFrom_getElem seg.tag (childrenOf n0) 0 i c hi htg
              rw [List.getElem?_map] at hget
              unfold sameTagChildren at hget
              rw [show k - 1
                  = (((childrenOf n0).take i).filter (hasTag seg.tag)).length
                by omega] at hget
              rw [this] at hget
              simp at hget
        | some x =>
            constructor
            · intro h
              simp only [List.mem_singleton] at h
              subst h
              rw [List.getElem?_map] at hget
              cases hget2 : (sameTagChildren n0 seg.tag)[k - 1]? with
              | none => rw [hget2] at hget; simp at hget
              | some ic =>
                  rw [hget2] at hget
                  simp only [Option.map_some', Option.some.injEq] at hget
                  obtain ⟨j, hj0, hjc, hjt, hcnt⟩ :=
                    sameTagFrom_getElem_inv seg.tag (childrenOf n0) 0 (k - 1)
                      ic.1 ic.2 (by simpa using hget2)
                  rw [Prod.mk.injEq] at hget
                  obtain ⟨hq2, hc2⟩ := hget
                  refine ⟨ic.1, hq2.symm, ?_, ?_⟩
                  · rw [show ic.1 = j by omega, hjc, hc2]
                  · unfold segMatchesAt
                    rw [show ic.1 = j by omega, hjc, hord]
                    simp only [Bool.and_eq_true, beq_iff_eq]
                    refine ⟨hjt, ?_⟩
                    omega
            · rintro ⟨i, rfl, hi, hmatch⟩
              unfold segMatchesAt at hmatch
              rw [hi, hord] at hmatch
              simp only [Bool.and_eq_true, beq_iff_eq] at hmatch
              obtain ⟨htg, hkeq⟩ := hmatch
              have hse := sameTagFrom_getElem seg.tag (childrenOf n0) 0 i c hi htg
              rw [List.getElem?_map] at hget
              unfold sameTagChildren at hget
              rw [show k - 1
                  = (((childrenOf n0).take i).filter (hasTag seg.tag)).length
                by omega] at hget
              rw [hse] at hget
              simp only [Option.map_some', Option.some.injEq] at hget
              simp [← hget]

theorem pathMatchesFrom_nil_iff {n : DomNode} {qr : Path} :
    pathMatchesFrom n [] qr = true ↔ qr = [] := by
  cases qr <;> simp [pathMatchesFrom]

theorem pathMatchesFrom_nodeAt :
    ∀ (segs : List Segment) (n : DomNode) (qr : Path),
      pathMatchesFrom n segs qr = true → ∃ m, nodeAt n qr = some m := by
  intro segs
  induction segs with
  | nil =>
      intro n qr h
      have := pathMatchesFrom_nil_iff.mp h
      subst this
      exact ⟨n, rfl⟩
  | cons seg rest ih =>
      intro n qr h
      cases qr with
      | nil => simp [pathMatchesFrom] at h
      | cons i qr' =>
          unfold pathMatchesFrom at h
          rw [Bool.and_eq_true] at h
          obtain ⟨hsm, hrest⟩ := h
          cases hchild : (childrenOf n)[i]? with
          | none => rw [hchild] at hrest; simp at hrest
          | some c =>
              rw [hchild] at hrest
              simp only at hrest
              obtain ⟨m, hm⟩ := ih c qr' hrest
              refine ⟨m, ?_⟩
              unfold nodeAt
              rw [hchild]
              exact hm

theorem mem_foldlSteps :
    ∀ (segs : List Segment) (init : List (Path × DomNode)) (q : Path)
      (m : DomNode),
      ((q, m) ∈ List.foldl
          (fun set seg => set.flatMap (fun pn => segStep pn seg)) init segs) ↔
      ∃ q0 n0 qr, (q0, n0) ∈ init ∧ q = q0 ++ qr ∧
        pathMatchesFrom n0 segs qr = true ∧ nodeAt n0 qr = some m := by
  intro segs
  induction segs with
  | nil =>
      intro init q m
      simp only [List.foldl_nil]
      constructor
      · intro h
        exact ⟨q, m, [], h, by simp, by simp [pathMatchesFrom], by simp [nodeAt]⟩
      · rintro ⟨q0, n0, qr, hmem, rfl, hpm, hn⟩
        have hqr := pathMatchesFrom_nil_iff.mp hpm
        subst hqr
        simp [nodeAt] at hn
        subst hn
        simpa using hmem
  | cons seg rest ih =>
      intro init q m
      rw [List.foldl_cons, ih]
      constructor
      · rintro ⟨q1, n1, qr, hmem, rfl, hpm, hn⟩
        rw [List.mem_flatMap] at hmem
        obtain ⟨pn, hpn, hstep⟩ := hmem
        obtain ⟨i, heq, hchild, hsm⟩ := mem_segStep.mp hstep
        subst heq
        refine ⟨pn.1, pn.2, i :: qr, by simpa using hpn, by simp, ?_, ?_⟩
        · unfold pathMatchesFrom
          rw [Bool.and_eq_true, hchild]
          exact ⟨hsm, hpm⟩
        · unfold nodeAt
          rw [hchild]
          exact hn
      · rintro ⟨q0, n0, qr, hmem, rfl, hpm, hn⟩
        cases qr with
        | nil => simp [pathMatchesFrom] at hpm
        | cons i qr' =>
            unfold pathMatchesFrom at hpm
            rw [Bool.and_eq_true] at hpm
            obtain ⟨hsm, hrest⟩ := hpm
            cases hchild : (childrenOf n0)[i]? with
            | none => rw [hchild] at hrest; simp at hrest
            | some c =>
                rw [hchild] at hrest
                simp only at hrest
                unfold nodeAt at hn
                rw [hchild] at hn
                refine ⟨q0 ++ [i], c, qr', ?_, by simp, hrest, hn⟩
                rw [List.mem_flatMap]
                exact ⟨(q0, n0), hmem, mem_segStep.mpr ⟨i, rfl, hchild, hsm⟩⟩

theorem foldl_steps_nil :
    ∀ (segs : List Segment),
      List.foldl (fun set seg => set.flatMap (fun pn => segStep pn seg))
        ([] : List (Path × DomNode)) segs = [] := by
  intro segs
  induction segs with
  | nil => rfl
  | cons seg rest ih => simpa using ih

theorem mem_resolveSegs (t : DomNode) (segs : List Segment) (q : Path) :
    (∃ n, (q, n) ∈ resolveSegs t segs) ↔
      addrMatches t (Address.byPath segs) q = true := by
  cases segs with
  | nil => simp [resolveSegs, addrMatches]
  | cons s0 rest =>
      unfold resolveSegs addrMatches
      dsimp only
      cases hr : rootMatches t s0 with
      | true =>
          rw [show (isElemB t && (tagOf t == s0.tag)
              && (match s0.ord with | none => true | some k => k == 1))
              = true from hr]
          rw [if_pos rfl]
          constructor
          · rintro ⟨n, hmem⟩
            obtain ⟨q0, n0, qr, hinit, rfl, hpm, _⟩ :=
              (mem_foldlSteps rest [(([] : Path), t)] _ n).mp hmem
            simp at hinit
            obtain ⟨rfl, rfl⟩ := hinit
            simpa using hpm
          · intro h
            rw [Bool.and_eq_true] at h
            obtain ⟨m, hm⟩ := pathMatchesFrom_nodeAt rest t q h.2
            exact ⟨m, (mem_foldlSteps rest [(([] : Path), t)] q m).mpr
              ⟨[], t, q, by simp, by simp, h.2, hm⟩⟩
      | false =>
          rw [show (isElemB t && (tagOf t == s0.tag)
              && (match s0.ord with | none => true | some k => k == 1))
              = false from hr]
          rw [if_neg (by simp)]
          rw [foldl_steps_nil]
          simp [hr]

/-- Claim C4, corrected part.  The decoder reports not-found exactly when
the address matches no element of the current tree; when the address is
ambiguous (matches several elements) it does NOT report not-found but
returns the first matching element in document order, see the
counterexample. -/
theorem C4_not_found_iff_no_match (t : DomNode) (a : Address) :
    elementByXPath t a = none ↔ ∀ q, addrMatches t a q = false := by
  cases a with
  | byId s =>
      unfold elementByXPath
      rw [Option.map_eq_none']
      rw [List.find?_eq_none]
      constructor
      · intro h q
        unfold addrMatches
        cases hn : nodeAt t q with
        | none => rfl
        | some n =>
            cases hel : isElemB n with
            | false => simp [hel]
            | true =>
                have hmem : (q, n) ∈ preorderElems t [] :=
                  (mem_preorderElems t [] q n).mpr ⟨q, by simp, hn, hel⟩
                have := h (q, n) hmem
                simp at this
                simp [this]
      · intro h pn hmem
        obtain ⟨r, hq, hn, hel⟩ :=
          (mem_preorderElems t [] pn.1 pn.2).mp hmem
        simp at hq
        subst hq
        have := h pn.1
        unfold addrMatches at this
        rw [hn] at this
        simp only [hel, Bool.true_and] at this
        simp [this]
  | byPath segs =>
      unfold elementByXPath
      rw [List.head?_eq_none_iff, List.map_eq_nil_iff,
        List.eq_nil_iff_forall_not_mem]
      constructor
      · intro h q
        cases hm : addrMatches t (Address.byPath segs) q with
        | false => rfl
        | true =>
            obtain ⟨n, hn⟩ := (mem_resolveSegs t segs q).mpr hm
            exact absurd hn (h (q, n))
      · intro h pn hmem
        have : addrMatches t (Address.byPath segs) pn.1 = true :=
          (mem_resolveSegs t segs pn.1).mp ⟨pn.2, by simpa using hmem⟩
        rw [h pn.1] at this
        simp at this

/-- Claim C4 as frozen is false: the address `/html/div` matches both `div`
children of `twoDivTree`, yet the decoder returns the first match in
document order instead of reporting not-found. -/
theorem C4_ambiguous_returns_first_counterexample :
    addrMatches twoDivTree
      (Address.byPath [⟨"html", none⟩, ⟨"div", none⟩]) [0] = true ∧
    addrMatches twoDivTree
      (Address.byPath [⟨"html", none⟩, ⟨"div", none⟩]) [1] = true ∧
    ([0] : Path) ≠ [1] ∧
    elementByXPath twoDivTree
      (Address.byPath [⟨"html", none⟩, ⟨"div", none⟩]) = some [0] := by
  decide

theorem mem_withIdx {α : Type} :
    ∀ (l : List α) (k i : Nat) (a : α),
      ((i, a) ∈ withIdx k l) ↔ ∃ j, i = k + j ∧ l[j]? = some a := by
  intro l
  induction l with
  | nil => intro k i a; simp [withIdx]
  | cons b bs ih =>
      intro k i a
      simp only [withIdx, List.mem_cons]
      constructor
      · rintro (heq | hmem)
        · rw [Prod.mk.injEq] at heq
          obtain ⟨rfl, rfl⟩ := heq
          exact ⟨0, by omega, by simp⟩
        · obtain ⟨j, rfl, hj⟩ := (ih (k + 1) i a).mp hmem
          exact ⟨j + 1, by omega, by simpa using hj⟩
      · rintro ⟨j, rfl, hj⟩
        cases j with
        | zero =>
            left
            simp at hj
            simp [hj]
        | succ j' =>
            right
            exact (ih (k + 1) (k + (j' + 1)) a).mpr
              ⟨j', by omega, by simpa using hj⟩

theorem withIdx_fst_le {α : Type} :
    ∀ (l : List α) (k : Nat) (x : Nat × α), x ∈ withIdx k l → k ≤ x.1 := by
  intro l
  induction l with
  | nil => intro k x h; simp [withIdx] at h
  | cons b bs ih =>
      intro k x h
      simp only [withIdx, List.mem_cons] at h
      rcases h with rfl | h
      · exact le_refl _
      · exact le_trans (by omega) (ih (k + 1) x h)

theorem withIdx_pairwise {α : Type} :
    ∀ (l : List α) (k : Nat),
      (withIdx k l).Pairwise (fun x y => x.1 < y.1) := by
  intro l
  induction l with
  | nil => intro k; simp [withIdx]
  | cons b bs ih =>
      intro k
      refine List.Pairwise.cons ?_ (ih (k + 1))
      intro y hy
      have := withIdx_fst_le bs (k + 1) y hy
      omega

theorem pairwise_flatMap_of {α β : Type} {R : β → β → Prop} (f : α → List β) :
    ∀ (l : List α), (∀ a ∈ l, (f a).Pairwise R) →
      (l.Pairwise (fun a b => ∀ x ∈ f a, ∀ y ∈ f b, R x y)) →
      (l.flatMap f).Pairwise R := by
  intro l
  induction l with
  | nil => intro _ _; simp
  | cons a l' ih =>
      intro hin hcross
      rw [List.flatMap_cons, List.pairwise_append]
      refine ⟨hin a (List.mem_cons_self a l'),
        ih (fun b hb => hin b (List.mem_cons_of_mem a hb))
          (List.Pairwise.of_cons hcross), ?_⟩
      intro x hx y hy
      rw [List.mem_flatMap] at hy
      obtain ⟨b, hb, hyb⟩ := hy
      exact (List.pairwise_cons.mp hcross).1 b hb x hx y hyb

/-- Claim C6: every MatchRef the scanner emits points into a text node of
one of the candidate leaves, with offsets `0 ≤ start < end ≤ length` of
that node's content, and the `[start, end)` slice is exactly one
delimiter-span match, delimiters included. -/
theorem C6_scanner_invariant (t : DomNode) (rp : Option Path) (r : MatchRef)
    (hr : r ∈ findMatches t rp) :
    0 ≤ r.start ∧ r.start < r.end_ ∧
    ∃ rpv pl s, rp = some rpv ∧ pl ∈ candidatesOf t rpv ∧
      r.xpath = getXPath t pl.1 ∧
      (textNodesUnder pl.2)[r.nodeIndex.toNat]? = some s ∧
      r.end_ ≤ (s.length : Int) ∧
      isDelimSpan (sliceBetween s.data r.start.toNat r.end_.toNat) := by
  match rp with
  | none => simp [findMatches] at hr
  | some rpv =>
      unfold findMatches at hr
      rw [List.mem_flatMap] at hr
      obtain ⟨pl, hpl, hr⟩ := hr
      unfold matchRefsOfLeaf at hr
      by_cases hg1 : (innerTextOf pl.2).data.contains '$'
      case neg => rw [if_neg hg1] at hr; simp at hr
      rw [if_pos hg1] at hr
      by_cases hg2 : (textNodesUnder pl.2).length = 0
      case pos => rw [if_pos hg2] at hr; simp at hr
      rw [if_neg hg2] at hr
      rw [List.mem_flatMap] at hr
      obtain ⟨ts, hts, hr⟩ := hr
      unfold matchRefsOfNode at hr
      by_cases hg3 : ts.2.data.contains '$'
      case neg => rw [if_neg hg3] at hr; simp at hr
      rw [if_pos hg3] at hr
      rw [List.mem_map] at hr
      obtain ⟨ab, hab, hrr⟩ := hr
      obtain ⟨a, b⟩ := ab
      subst hrr
      obtain ⟨hia, h3, hbs, hm⟩ := mem_scanFrom hab
      obtain ⟨j, hts1, htsj⟩ := (mem_withIdx (textNodesUnder pl.2) 0 ts.1 ts.2).mp
        (by simpa using hts)
      dsimp only
      refine ⟨by omega, by omega, rpv, pl, ts.2, rfl, hpl, rfl, ?_, ?_, ?_⟩
      · rw [show ((ts.1 : Int)).toNat = j by omega]
        exact htsj
      · have : ts.2.length = ts.2.data.length := rfl
        omega
      · rw [show ((a : Int)).toNat = a by omega,
          show ((b : Int)).toNat = b by omega]
        exact isDelimSpan_of_scan hab

theorem C6_scanner_invariant_witness :
    egRef ∈ findMatches egPage (some []) ∧
    (0 ≤ egRef.start ∧ egRef.start < egRef.end_ ∧
    ∃ rpv pl s, (some [] : Option Path) = some rpv ∧
      pl ∈ candidatesOf egPage rpv ∧
      egRef.xpath = getXPath egPage pl.1 ∧
      (textNodesUnder pl.2)[egRef.nodeIndex.toNat]? = some s ∧
      egRef.end_ ≤ (s.length : Int) ∧
      isDelimSpan (sliceBetween s.data egRef.start.toNat egRef.end_.toNat)) :=
  ⟨by decide, C6_scanner_invariant egPage (some []) egRef (by decide)⟩

theorem matchRefsOfNode_nodeIndex {xp : Address} {ti : Nat} {s : String}
    {r : MatchRef} (h : r ∈ matchRefsOfNode xp ti s) :
    r.nodeIndex = (ti : Int) := by
  unfold matchRefsOfNode at h
  by_cases hg : s.data.contains '$'
  · rw [if_pos hg, List.mem_map] at h
    obtain ⟨ab, _, rfl⟩ := h
    rfl
  · rw [if_neg hg] at h
    simp at h

theorem matchRefsOfNode_pairwise (xp : Address) (ti : Nat) (s : String) :
    (matchRefsOfNode xp ti s).Pairwise (fun x y => x.start < y.start) := by
  unfold matchRefsOfNode
  by_cases hg : s.data.contains '$'
  · rw [if_pos hg, List.pairwise_map]
    refine List.Pairwise.imp_of_mem ?_ (scanAll_pairwise s.data)
    intro a b ha hb hab
    obtain ⟨a1, a2⟩ := a
    obtain ⟨b1, b2⟩ := b
    have h1 := mem_scanFrom ha
    dsimp only
    simp only at hab
    omega
  · rw [if_neg hg]
    simp

theorem matchRefsOfLeaf_pairwise (t : DomNode) (pl : Path × DomNode) :
    (matchRefsOfLeaf t pl).Pairwise (fun x y =>
      x.nodeIndex < y.nodeIndex ∨
      (x.nodeIndex = y.nodeIndex ∧ x.start < y.start)) := by
  unfold matchRefsOfLeaf
  by_cases hg1 : (innerTextOf pl.2).data.contains '$'
  case neg => rw [if_neg hg1]; simp
  rw [if_pos hg1]
  by_cases hg2 : (textNodesUnder pl.2).length = 0
  case pos => rw [if_pos hg2]; simp
  rw [if_neg hg2]
  apply pairwise_flatMap_of
  · intro ts _
    refine List.Pairwise.imp_of_mem ?_
      (matchRefsOfNode_pairwise (getXPath t pl.1) ts.1 ts.2)
    intro x y hx hy hxy
    right
    rw [matchRefsOfNode_nodeIndex hx, matchRefsOfNode_nodeIndex hy]
    exact ⟨rfl, hxy⟩
  · refine List.Pairwise.imp ?_ (withIdx_pairwise (textNodesUnder pl.2) 0)
    intro a b hab x hx y hy
    left
    rw [matchRefsOfNode_nodeIndex hx, matchRefsOfNode_nodeIndex hy]
    exact_mod_cast hab

/-- Claim C9: scanning is a pure function of the tree (two scans of the
same unchanged tree are the same list), and the emitted order is document
order of candidate leaves, then text-node ordinal within the leaf, then
increasing match position within the text node: the leaf-keyed scan is
lexicographically sorted, and the plain scan is its projection. -/
theorem C9_scan_deterministic_ordered (t : DomNode) (rp : Option Path) :
    findMatches t rp = (findMatchesKeyed t rp).map Prod.snd ∧
    (findMatchesKeyed t rp).Pairwise (fun x y =>
      x.1 < y.1 ∨ (x.1 = y.1 ∧ (x.2.nodeIndex < y.2.nodeIndex ∨
        (x.2.nodeIndex = y.2.nodeIndex ∧ x.2.start < y.2.start)))) := by
  cases rp with
  | none => exact ⟨rfl, by simp [findMatchesKeyed]⟩
  | some rpv =>
      constructor
      · unfold findMatches findMatchesKeyed
        have hproj : ∀ (l : List (Path × DomNode)) (k : Nat),
            ((withIdx k l).flatMap (fun li =>
              (matchRefsOfLeaf t li.2).map (fun r => (li.1, r)))).map Prod.snd
              = l.flatMap (matchRefsOfLeaf t) := by
          intro l
          induction l with
          | nil => intro k; rfl
          | cons a l' ih =>
              intro k
              simp only [withIdx, List.flatMap_cons, List.map_append,
                List.map_map, ih (k + 1)]
              congr 1
              simp [Function.comp]
        exact (hproj (candidatesOf t rpv) 0).symm
      · unfold findMatchesKeyed
        apply pairwise_flatMap_of
        · intro li _
          rw [List.pairwise_map]
          refine List.Pairwise.imp ?_ (matchRefsOfLeaf_pairwise t li.2)
          intro x y hxy
          exact Or.inr ⟨rfl, hxy⟩
        · refine List.Pairwise.imp ?_
            (withIdx_pairwise (candidatesOf t rpv) 0)
          intro a b hab x hx y hy
          rw [List.mem_map] at hx hy
          obtain ⟨rx, _, rfl⟩ := hx
          obtain ⟨ry, _, rfl⟩ := hy
          exact Or.inl hab

/-- Claim C8: the selector never alters the document tree — hence no text
node's content — whether it succeeds or fails; its writes are confined to
the scroll, selection and focus components of the state. -/
theorem C8_select_preserves_tree (st : PageState) (args : MatchRef) :
    ((selectMatch st args).2).tree = st.tree := by
  unfold selectMatch
  cases h : elementByXPath st.tree args.xpath with
  | none => rfl
  | some p =>
      dsimp only
      split
      · rfl
      · split
        · rfl
        · cases hf : focusTarget st.tree p <;> rfl

/-- Claim C10: on any failure the selection and focus are untouched (all
validations run before the range or focus mutations); on not-found the
whole state is untouched; but on index-out-of-range and invalid-offsets
the scroll-into-view has already happened (it follows address resolution
immediately, before those validations). -/
theorem C10_failure_effects (st : PageState) (args : MatchRef) :
    ((selectMatch st args).1 ≠ SelectResult.ok →
      (selectMatch st args).2.selection = st.selection ∧
      (selectMatch st args).2.focus = st.focus) ∧
    ((selectMatch st args).1 = SelectResult.notFound →
      (selectMatch st args).2 = st) ∧
    ((selectMatch st args).1 = SelectResult.indexOutOfRange ∨
      (selectMatch st args).1 = SelectResult.invalidOffsets →
      ∃ p, elementByXPath st.tree args.xpath = some p ∧
        (selectMatch st args).2.scroll = some p) := by
  unfold selectMatch
  cases h : elementByXPath st.tree args.xpath with
  | none =>
      refine ⟨fun _ => ⟨rfl, rfl⟩, fun _ => rfl, fun hor => ?_⟩
      rcases hor with h1 | h1 <;> simp at h1
  | some p =>
      dsimp only
      split
      · exact ⟨fun _ => ⟨rfl, rfl⟩, fun hnf => by simp at hnf,
          fun _ => ⟨p, rfl, rfl⟩⟩
      · split
        · exact ⟨fun _ => ⟨rfl, rfl⟩, fun hnf => by simp at hnf,
            fun _ => ⟨p, rfl, rfl⟩⟩
        · refine ⟨fun hne => absurd rfl hne, fun hnf => by simp at hnf,
            fun hor => ?_⟩
          rcases hor with h1 | h1 <;> simp at h1

/-- Claim C5: the selector's result is the validation chain of
JS_SELECT_MATCH — `not-found` exactly when the address does not resolve;
given a resolved element, `index-out-of-range` exactly when `nodeIndex`
falls outside the freshly recomputed text-node traversal; given a valid
index, `invalid-offsets` exactly when `0 ≤ start < end ≤ length` fails on
the current text content, and `ok` exactly when it holds. -/
theorem C5_selector_validation (st : PageState) (args : MatchRef) :
    ((selectMatch st args).1 = SelectResult.notFound ↔
      elementByXPath st.tree args.xpath = none) ∧
    (∀ p, elementByXPath st.tree args.xpath = some p →
      (((selectMatch st args).1 = SelectResult.indexOutOfRange ↔
        ¬(0 ≤ args.nodeIndex ∧
          args.nodeIndex < ((textNodesOfResolved st.tree p).length : Int))) ∧
      (∀ tn, (textNodesOfResolved st.tree p)[args.nodeIndex.toNat]? = some tn →
        0 ≤ args.nodeIndex →
        (((selectMatch st args).1 = SelectResult.invalidOffsets ↔
          ¬(0 ≤ args.start ∧ args.start < args.end_ ∧
            args.end_ ≤ (tn.2.length : Int))) ∧
        ((selectMatch st args).1 = SelectResult.ok ↔
          (0 ≤ args.start ∧ args.start < args.end_ ∧
            args.end_ ≤ (tn.2.length : Int))))))) := by
  unfold selectMatch
  cases h : elementByXPath st.tree args.xpath with
  | none =>
      refine ⟨by simp, fun p hp => ?_⟩
      simp at hp
  | some p0 =>
      dsimp only
      constructor
      · constructor
        · intro h1
          split at h1 <;> simp_all
          split at h1 <;> simp_all
        · intro h1
          simp at h1
      · intro p hp
        rw [Option.some.injEq] at hp
        subst hp
        split
        · rename_i hidx
          constructor
          · constructor
            · intro _
              omega
            · intro _
              rfl
          · intro tn hget hge
            have hlt : args.nodeIndex.toNat < (textNodesOfResolved st.tree p0).length := by
              rcases List.getElem?_eq_some.mp hget with ⟨hl, _⟩
              exact hl
            exact absurd hlt (by omega)
        · rename_i hidx
          have hlt : args.nodeIndex.toNat < (textNodesOfResolved st.tree p0).length := by
            omega
          have hget0 : (textNodesOfResolved st.tree p0)[args.nodeIndex.toNat]?
              = some ((textNodesOfResolved st.tree p0).get
                ⟨args.nodeIndex.toNat, hlt⟩) := by
            rw [List.getElem?_eq_some]
            exact ⟨hlt, rfl⟩
          constructor
          · constructor
            · intro h1
              split at h1 <;> simp_all
            · intro h1
              omega
          · intro tn hget _
            have htn : tn = (textNodesOfResolved st.tree p0).get
                ⟨args.nodeIndex.toNat, hlt⟩ := by
              rw [hget0] at hget
              exact (Option.some.inj hget).symm
            subst htn
            split
            · rename_i hoff
              constructor
              · constructor
                · intro _
                  omega
                · intro _
                  rfl
              · constructor
                · intro h1
                  simp at h1
                · intro hok
                  omega
            · rename_i hoff
              constructor
              · constructor
                · intro h1
                  exfalso
                  cases hf : focusTarget st.tree p0 <;> rw [hf] at h1 <;>
                    simp at h1
                · intro h1
                  omega
              · constructor
                · intro _
                  constructor
                  · omega
                  constructor
                  · omega
                  · omega
                · intro _
                  cases hf : focusTarget st.tree p0 <;> rfl

theorem C5_selector_validation_witness :
    (selectMatch egState badOffsetsRef).1 = SelectResult.invalidOffsets ∧
    (selectMatch egState2 badIndexRef).1 = SelectResult.indexOutOfRange := by
  constructor
  · have h := C5_selector_validation egState badOffsetsRef
    have hp : elementByXPath egState.tree badOffsetsRef.xpath = some [0] := by
      decide
    have h2 := (h.2 [0] hp).2 ([0, 0], "Energy is $$E=mc^2$$ always.")
      (by decide) (by decide)
    exact h2.1.mpr (by decide)
  · have h := C5_selector_validation egState2 badIndexRef
    have hp : elementByXPath egState2.tree badIndexRef.xpath = some [0] := by
      decide
    exact (h.2 [0] hp).1.mpr (by decide)

theorem C10_failure_effects_witness :
    (selectMatch egState badOffsetsRef).2.selection = none ∧
    (selectMatch egState badOffsetsRef).2.focus = none ∧
    ∃ p, elementByXPath egState.tree badOffsetsRef.xpath = some p ∧
      (selectMatch egState badOffsetsRef).2.scroll = some p := by
  have h := C10_failure_effects egState badOffsetsRef
  have hres : (selectMatch egState badOffsetsRef).1
      = SelectResult.invalidOffsets := by decide
  have hne : (selectMatch egState badOffsetsRef).1 ≠ SelectResult.ok := by
    rw [hres]
    intro hh
    cases hh
  obtain ⟨hsel, hfoc⟩ := h.1 hne
  obtain ⟨p, hp, hscroll⟩ := h.2.2 (Or.inr hres)
  exact ⟨hsel, hfoc, p, hp, hscroll⟩

end Notion
